import Mathlib

/-!
Shallow embedding of `object_detection.py` (MetaKor/comprobo_fiducial).

The program is a SIFT-based fiducial detector: it detects keypoints
("corners") in a reference image and in each video frame, computes SIFT
descriptors, matches the reference descriptors against the frame
descriptors with a k-nearest-neighbour ratio test, and K-means-clusters
the accepted keypoints into four centroids.

Numeric values (pixel coordinates, SIFT responses, descriptor distances,
thresholds) are modelled as rationals.  The OpenCV and scikit-learn
library calls the source makes are modelled by explicit definitions whose
documented behaviour they follow; the image type, the detector output and
the per-keypoint descriptor function are parameters (packed in `CVModel`),
since the claims hold for every behaviour of those externals.
-/

/-- A SIFT keypoint: position `pt = (x, y)` and strength `response`,
the only fields the source reads. -/
structure Keypoint where
  x : ℚ
  y : ℚ
  response : ℚ
deriving DecidableEq

/-- A `cv2.DMatch`: `queryIdx` indexes the first descriptor set given to
`knnMatch`, `trainIdx` the second, `distance` is the descriptor distance. -/
structure DMatch where
  queryIdx : Nat
  trainIdx : Nat
  distance : ℚ
deriving DecidableEq

/-- Python exceptions that the matching code can raise:
`ValueError` from unpacking `for m, n in matches` when an inner list does
not have exactly two elements, `IndexError` from `new_corners[m.trainIdx]`,
and `NameError` from reading `cluster_coords` before any assignment. -/
inductive PyErr where
  | valueError
  | indexError
  | nameError
deriving DecidableEq

/-- The mutable state of the `object_detection` class: the two threshold
fields set in `__init__` and mutated by the slider callbacks. -/
structure object_detection where
  corner_threshold : ℚ
  close_match_threshold : ℚ
deriving DecidableEq

/-- Python `__init__`: `corner_threshold = 0.0`, `close_match_threshold = 1.0`. -/
def object_detection.initial : object_detection :=
  { corner_threshold := 0, close_match_threshold := 1 }

/-- Source `change_corner_threshold`: `self.corner_threshold = value/1000.0`. -/
def change_corner_threshold (od : object_detection) (value : ℚ) : object_detection :=
  { od with corner_threshold := value / 1000 }

/-- Source `change_match_threshold`: `self.close_match_threshold = value/100.0`. -/
def change_match_threshold (od : object_detection) (value : ℚ) : object_detection :=
  { od with close_match_threshold := value / 100 }

/-- Model of the OpenCV externals the source calls.  `cvtColor` is
`cv2.cvtColor(·, COLOR_BGR2GRAY)`; `sift_detect` is
`cv2.SIFT_create().detect` (deterministic per image); `descOf` gives the
SIFT descriptor `cv2.SIFT_create().compute` produces for one provided
keypoint (with provided keypoints SIFT computes one descriptor per
keypoint, removing none); `dist` is the descriptor distance used by
`cv2.BFMatcher()` (L2 over descriptor vectors, abstracted to an arbitrary
rational-valued function since no claim depends on its form). -/
structure CVModel (Image : Type) (D : Type) where
  cvtColor : Image → Image
  sift_detect : Image → List Keypoint
  descOf : Image → Keypoint → D
  dist : D → D → ℚ

/-- Source `find_corners`: detect on the grayscale image, keep the corners with
`corner.response > self.corner_threshold`. -/
def find_corners {Image D : Type} (M : CVModel Image D) (od : object_detection)
    (image : Image) : List Keypoint :=
  (M.sift_detect (M.cvtColor image)).filter
    (fun corner => decide (od.corner_threshold < corner.response))

/-- Model of `cv2.SIFT_create().compute(image_bw, corners)`: with provided
keypoints SIFT computes exactly one descriptor per keypoint, in order. -/
def sift_compute {Image D : Type} (M : CVModel Image D) (image_bw : Image)
    (corners : List Keypoint) : List D :=
  corners.map (M.descOf image_bw)

/-- Source `find_descriptors`: re-runs `find_corners` on the image (at the
current threshold), then computes the descriptors of those corners. -/
def find_descriptors {Image D : Type} (M : CVModel Image D) (od : object_detection)
    (image : Image) : List D :=
  sift_compute M (M.cvtColor image) (find_corners M od image)

/-- The pairwise-preorder `BFMatcher` sorts candidate matches by:
compare by `distance`. -/
def dmLE (a b : DMatch) : Prop := a.distance ≤ b.distance

instance : DecidableRel dmLE := fun a b =>
  inferInstanceAs (Decidable (a.distance ≤ b.distance))

instance : IsTotal DMatch dmLE := ⟨fun a b => le_total a.distance b.distance⟩

instance : IsTrans DMatch dmLE := ⟨fun _ _ _ hab hbc => le_trans hab hbc⟩

/-- The candidate matches of one query descriptor `q` (at position `qi`
of the query set) against every element of the `pool`: one `DMatch` per
pool index, holding the descriptor distance. -/
def cands {Image D : Type} (M : CVModel Image D) (qi : Nat) (q : D)
    (pool : List D) : List DMatch :=
  (List.range pool.length).map (fun ti => ⟨qi, ti, M.dist q (pool.getD ti q)⟩)

/-- The rows of `knnMatch` for query descriptors `qs` starting at query
index `qi`: for each query descriptor, the two best train matches in
increasing distance order. -/
def knnRows {Image D : Type} (M : CVModel Image D) (new : List D) :
    Nat → List D → List (List DMatch)
  | _, [] => []
  | qi, q :: qs =>
      (List.insertionSort dmLE (cands M qi q new)).take 2 :: knnRows M new (qi + 1) qs

/-- Model of `cv2.BFMatcher().knnMatch(original, new, k=2)`: for each descriptor
of `original` (the query set of the call), the `k = 2` best matches in
`new` (the train set), sorted by distance; if either descriptor set is
empty, the OpenCV `DescriptorMatcher::knnMatch` returns no matches at all. -/
def knnMatch {Image D : Type} (M : CVModel Image D) (original new : List D) :
    List (List DMatch) :=
  if original.isEmpty || new.isEmpty then []
  else knnRows M new 0 original

/-- The `for m, n in matches:` loop of `corner_match`: unpack each row
into `(m, n)` (a row of length other than two raises `ValueError`), and
append `(m.queryIdx, m.trainIdx)` when
`m.distance < self.close_match_threshold * n.distance` and
`new_corners[m.trainIdx].response > self.corner_threshold`; the second
conjunct is only evaluated when the first holds (Python `and`
short-circuits) and raises `IndexError` when `m.trainIdx` is out of
range of `new_corners`. -/
def matchLoop (t c : ℚ) (new_corners : List Keypoint) :
    List (List DMatch) → Except PyErr (List (Nat × Nat))
  | [] => .ok []
  | [m, n] :: rest =>
      if m.distance < c * n.distance then
        match new_corners[m.trainIdx]? with
        | none => .error .indexError
        | some kp =>
            if t < kp.response then
              match matchLoop t c new_corners rest with
              | .error e => .error e
              | .ok good => .ok ((m.queryIdx, m.trainIdx) :: good)
            else matchLoop t c new_corners rest
      else matchLoop t c new_corners rest
  | _ :: _ => .error .valueError

/-- The final comprehension `[new_corners[i] for i in corner_idx]`:
indexes `new_corners` at each collected index (raising `IndexError` when
out of range). -/
def getCorners (new_corners : List Keypoint) : List Nat → Except PyErr (List Keypoint)
  | [] => .ok []
  | i :: is =>
      match new_corners[i]? with
      | none => .error .indexError
      | some kp =>
          match getCorners new_corners is with
          | .error e => .error e
          | .ok rest => .ok (kp :: rest)

/-- Source `corner_match(self, original, new, new_corners)`: 2-NN match of the
reference descriptors `original` against the frame descriptors `new`,
the ratio-and-response loop, then the matched corners of the frame. -/
def corner_match {Image D : Type} (M : CVModel Image D) (od : object_detection)
    (original new : List D) (new_corners : List Keypoint) :
    Except PyErr (List Keypoint) :=
  match matchLoop od.corner_threshold od.close_match_threshold new_corners
      (knnMatch M original new) with
  | .error e => .error e
  | .ok good_matches => getCorners new_corners (good_matches.map (·.2))

/-- Source `find_x`: the `pt[0]` coordinates of the corners. -/
def find_x (corners : List Keypoint) : List ℚ :=
  corners.map (fun corner => corner.x)

/-- Source `find_y`: the `pt[1]` coordinates of the corners. -/
def find_y (corners : List Keypoint) : List ℚ :=
  corners.map (fun corner => corner.y)

/-- Model of `sklearn.cluster.KMeans` with `n_clusters=4` and random initialisation, applied via `.fit(points)`:
raises `ValueError` exactly when the number of samples is below
`n_clusters = 4`; with at least 4 samples the fit completes and exposes
four `cluster_centers_` — duplicate samples produce duplicate centres
and at most a warning, never an exception.  The centre coordinates
themselves depend on the randomized initialisation and are abstracted
here by a deterministic representative; no claim depends on them. -/
def kmeans_fit (points : List (ℚ × ℚ)) : Except Unit (List (ℚ × ℚ)) :=
  if points.length < 4 then .error () else .ok (points.take 4)

/-- Source `find_four_clusters`: build the `(x, y)` point array of the corners
(`np.transpose(np.array([x, y]))` pairs the coordinate lists index-wise),
try the K-means fit, return `None` when it raises and the cluster
centres when it succeeds. -/
def find_four_clusters (od : object_detection) (corners : List Keypoint) :
    Option (List (ℚ × ℚ)) :=
  let _ := od
  let points := (find_x corners).zip (find_y corners)
  match kmeans_fit points with
  | .error _ => none
  | .ok clusters => some clusters

/-- What one iteration of the `__main__` loop draws on the frame:
the cluster centroids, when `cluster_coords is not None`, and a circle
per corner of `good_corners`. -/
structure FrameOut where
  drawnClusters : Option (List (ℚ × ℚ))
  drawnCorners : List Keypoint
deriving DecidableEq

/-- One iteration of the `while True:` loop of `__main__`, for a frame
that was read successfully.  The loop-carried state is the Python local
`cluster_coords`: `none` while still unbound (reading it raises
`NameError`), `some cc` once assigned.  The iteration detects corners;
with at most one corner it `continue`s (drawing nothing, state kept);
otherwise it matches against the cached training descriptors, reassigns
`cluster_coords` only when more than 5 corners matched, and then draws
whatever `cluster_coords` currently holds plus the matched corners. -/
def loop_step {Image D : Type} (M : CVModel Image D) (od : object_detection)
    (train_descriptors : List D) (st : Option (Option (List (ℚ × ℚ))))
    (frame : Image) :
    Except PyErr (Option (Option (List (ℚ × ℚ))) × Option FrameOut) :=
  let new_corners := find_corners M od frame
  if 1 < new_corners.length then
    match corner_match M od train_descriptors (find_descriptors M od frame) new_corners with
    | .error e => .error e
    | .ok good_corners =>
        let st1 := if 5 < good_corners.length
          then some (find_four_clusters od good_corners) else st
        match st1 with
        | none => .error .nameError
        | some cc => .ok (some cc, some ⟨cc, good_corners⟩)
  else .ok (st, none)

/-!  Concrete instantiations used by counterexamples and witnesses. -/

/-- A matcher-only instantiation of the externals: descriptors are
rationals and the `BFMatcher` distance is the absolute difference (the
L2 distance of one-component descriptor vectors); the image side is
trivial since `corner_match` never touches it. -/
def ratM : CVModel Unit ℚ :=
  { cvtColor := id
    sift_detect := fun _ => []
    descOf := fun _ _ => 0
    dist := fun a b => |a - b| }

/-- A full-pipeline instantiation: an image is the list of keypoints the
detector finds in it, each paired with its rational descriptor. -/
def cvQ : CVModel (List (Keypoint × ℚ)) ℚ :=
  { cvtColor := id
    sift_detect := fun img => img.map (fun p => p.1)
    descOf := fun img kp =>
      (((img.find? (fun p => decide (p.1 = kp))).map (fun p => p.2)).getD 0)
    dist := fun a b => |a - b| }

/-- A keypoint at `(i, i)` with response 1. -/
def kpAt (i : ℚ) : Keypoint := ⟨i, i, 1⟩

/-- Definition following the wording of the spec for claim C1, for refinement
comparison only (the source translation is `corner_match` above): "for
each descriptor in a query image, finds its two closest descriptors in a
reference set", with distances `d1, d2`, and the corresponding query
keypoint accepted iff `d1 < matchRatioThreshold * d2` and its
`response > cornerThreshold`. -/
def corner_match_spec {Image D : Type} (M : CVModel Image D) (od : object_detection)
    (original new : List D) (new_corners : List Keypoint) : List Keypoint :=
  (new.zip new_corners).filterMap (fun p =>
    match List.insertionSort dmLE (cands M 0 p.1 original) with
    | m :: n :: _ =>
        if m.distance < od.close_match_threshold * n.distance ∧
            od.corner_threshold < p.2.response
        then some p.2 else none
    | _ => none)

/-- The acceptance decision `corner_match` makes for one reference
descriptor `q`, as a pure function: sort the candidate matches of `q` against
the frame descriptors, take the two nearest, and keep the frame keypoint
at the nearest index when the ratio test and the response test pass. -/
def acceptedRef {Image D : Type} (M : CVModel Image D) (od : object_detection)
    (new : List D) (new_corners : List Keypoint) (q : D) : Option Keypoint :=
  match List.insertionSort dmLE (cands M 0 q new) with
  | m :: n :: _ =>
      if m.distance < od.close_match_threshold * n.distance then
        match new_corners[m.trainIdx]? with
        | some kp => if od.corner_threshold < kp.response then some kp else none
        | none => none
      else none
  | _ => none

/-!  Concrete inputs used by counterexamples, code-bug runs and witnesses. -/

/-- The thresholds as `__init__` leaves them. -/
def od0 : object_detection := object_detection.initial

/-- Thresholds with the ratio slider at 90: `close_match_threshold = 0.9`. -/
def odr : object_detection := { corner_threshold := 0, close_match_threshold := 9/10 }

/-- A training frame: six keypoints on the diagonal with descriptors
`10, 20, ..., 60`. -/
def frameA : List (Keypoint × ℚ) :=
  [(kpAt 1, 10), (kpAt 2, 20), (kpAt 3, 30), (kpAt 4, 40), (kpAt 5, 50), (kpAt 6, 60)]

/-- A frame with two keypoints whose descriptors are both `5`, so that
every reference descriptor sees a tied pair of nearest neighbours and
the strict ratio test rejects every match. -/
def frameB : List (Keypoint × ℚ) := [(kpAt 1, 5), (kpAt 2, 5)]

/-- The cached training descriptors of `frameA`. -/
def tdescA : List ℚ := find_descriptors cvQ od0 frameA

/-- The cluster centres produced by the six matched corners of `frameA`. -/
def centersA : List (ℚ × ℚ) := [(1, 1), (2, 2), (3, 3), (4, 4)]

/-- The six corners of `frameA`, all matched by `corner_match`. -/
def goodA : List Keypoint := [kpAt 1, kpAt 2, kpAt 3, kpAt 4, kpAt 5, kpAt 6]

/-- A frame with a weak corner (response `0.01`, descriptor `10`) and a
strong corner (response `0.03`, descriptor `0`). -/
def frame9 : List (Keypoint × ℚ) := [(⟨1, 1, 1/100⟩, 10), (⟨2, 2, 3/100⟩, 0)]

/-- Thresholds after moving the corner slider to 20: threshold `0.02`. -/
def od9a : object_detection := change_corner_threshold object_detection.initial 20

/-- Thresholds after then moving the corner slider back to 0. -/
def od9c : object_detection := change_corner_threshold od9a 0

/-!  Claim theorems: thresholds, empty inputs, clustering, detection. -/

/-- C10: `change_corner_threshold(raw)` sets `corner_threshold` to
exactly `raw / 1000.0` and `change_match_threshold(raw)` sets
`close_match_threshold` to exactly `raw / 100.0`, for every raw value;
in particular raw 50 yields 0.05 and raw 0 yields 0.0. -/
theorem C10_threshold_setters (od : object_detection) (v : ℚ) :
    (change_corner_threshold od v).corner_threshold = v / 1000 ∧
    (change_match_threshold od v).close_match_threshold = v / 100 ∧
    (change_corner_threshold od 50).corner_threshold = 1 / 20 ∧
    (change_corner_threshold od 0).corner_threshold = 0 := by
  refine ⟨rfl, rfl, ?_, ?_⟩ <;> norm_num [change_corner_threshold]

/-- C4: if either descriptor sequence given to `corner_match` is empty,
the result is the empty list and no exception is raised. -/
theorem C4_empty_descriptors {Image D : Type} (M : CVModel Image D)
    (od : object_detection) (original new : List D) (new_corners : List Keypoint)
    (h : original = [] ∨ new = []) :
    corner_match M od original new new_corners = .ok [] := by
  have hk : knnMatch M original new = [] := by
    rcases h with h | h <;> subst h <;> simp [knnMatch]
  simp [corner_match, hk, matchLoop, getCorners]

theorem C4_witness :
    (([] : List ℚ) = [] ∨ ([3] : List ℚ) = []) ∧
    corner_match ratM od0 [] [3] [] = .ok [] :=
  ⟨Or.inl rfl, C4_empty_descriptors ratM od0 [] [3] [] (Or.inl rfl)⟩

/-- C6 counterexample: four coincident corners are fewer than 4 distinct
points, yet `find_four_clusters` returns a result rather than `None`:
the K-means fit only raises (and is only caught) when there are fewer
than 4 samples, counted with multiplicity. -/
theorem C6_counterexample :
    ((find_x [kpAt 5, kpAt 5, kpAt 5, kpAt 5]).zip
        (find_y [kpAt 5, kpAt 5, kpAt 5, kpAt 5])).dedup.length = 1 ∧
    find_four_clusters od0 [kpAt 5, kpAt 5, kpAt 5, kpAt 5]
      = some [(5, 5), (5, 5), (5, 5), (5, 5)] := by
  constructor
  · decide
  · rfl

/-- C6 amended: `find_four_clusters` returns `None` exactly when given
fewer than 4 points counted with multiplicity (and, returning an
optional value with every failure of the fit caught, never raises);
4 or more points always produce a result, even when fewer than 4 are
distinct. -/
theorem C6_amended_none_iff_few_points (od : object_detection)
    (corners : List Keypoint) :
    find_four_clusters od corners = none ↔ corners.length < 4 := by
  have hlen : ((find_x corners).zip (find_y corners)).length = corners.length := by
    simp [find_x, find_y]
  unfold find_four_clusters kmeans_fit
  simp only [hlen]
  by_cases h4 : corners.length < 4 <;> simp [h4]

/-- C7: for a fixed image, raising the corner threshold never increases
the number of keypoints `find_corners` returns, and the result at the
higher threshold is the result at the lower threshold further filtered. -/
theorem C7_threshold_monotone {Image D : Type} (M : CVModel Image D)
    (t1 t2 ratio : ℚ) (img : Image) (h : t1 ≤ t2) :
    find_corners M ⟨t2, ratio⟩ img
      = (find_corners M ⟨t1, ratio⟩ img).filter (fun c => decide (t2 < c.response)) ∧
    (find_corners M ⟨t2, ratio⟩ img).length
      ≤ (find_corners M ⟨t1, ratio⟩ img).length := by
  have key : find_corners M ⟨t2, ratio⟩ img
      = (find_corners M ⟨t1, ratio⟩ img).filter (fun c => decide (t2 < c.response)) := by
    simp only [find_corners, List.filter_filter]
    apply List.filter_congr
    intro x _
    by_cases h2 : t2 < x.response
    · have h1 : t1 < x.response := lt_of_le_of_lt h h2
      simp [h1, h2]
    · simp [h2]
  exact ⟨key, key ▸ List.length_filter_le _ _⟩

theorem C7_witness :
    find_corners cvQ ⟨2 / 100, 1⟩ frame9
      = (find_corners cvQ ⟨0, 1⟩ frame9).filter
          (fun c => decide ((2 / 100 : ℚ) < c.response)) ∧
    (find_corners cvQ ⟨2 / 100, 1⟩ frame9).length
      ≤ (find_corners cvQ ⟨0, 1⟩ frame9).length :=
  C7_threshold_monotone cvQ 0 (2 / 100) 1 frame9 (by norm_num)

/-- C5: the descriptor sequence `find_descriptors` produces has exactly
the length of the keypoint sequence `find_corners` produces on the same
image at the same threshold, and its `i`-th entry is the descriptor of
the `i`-th keypoint. -/
theorem C5_descriptor_alignment {Image D : Type} (M : CVModel Image D)
    (od : object_detection) (img : Image) :
    (find_descriptors M od img).length = (find_corners M od img).length ∧
    ∀ i, i < (find_corners M od img).length → ∀ (dD : D) (dK : Keypoint),
      (find_descriptors M od img).getD i dD
        = M.descOf (M.cvtColor img) ((find_corners M od img).getD i dK) := by
  constructor
  · simp [find_descriptors, sift_compute]
  · intro i hi dD dK
    have hlen : i < (find_descriptors M od img).length := by
      simpa [find_descriptors, sift_compute] using hi
    rw [List.getD_eq_getElem?_getD, List.getD_eq_getElem?_getD,
      List.getElem?_eq_getElem hlen, List.getElem?_eq_getElem hi]
    simp [find_descriptors, sift_compute]

theorem C5_witness :
    0 < (find_corners cvQ od0 frame9).length ∧
    (find_descriptors cvQ od0 frame9).getD 0 0
      = cvQ.descOf (cvQ.cvtColor frame9) ((find_corners cvQ od0 frame9).getD 0 (kpAt 0)) :=
  ⟨by with_unfolding_all decide,
    (C5_descriptor_alignment cvQ od0 frame9).2 0 (by with_unfolding_all decide) 0 (kpAt 0)⟩

/-!  Structural lemmas about the matching loop. -/

theorem matchLoop_ok (t c : ℚ) (corners : List Keypoint) :
    ∀ (ms : List (List DMatch)) (good : List (Nat × Nat)),
      matchLoop t c corners ms = .ok good →
      good.length ≤ ms.length ∧
        ∀ p ∈ good, ∃ kp, corners[p.2]? = some kp ∧ t < kp.response := by
  intro ms
  induction ms with
  | nil =>
    intro good h
    simp only [matchLoop] at h
    cases h
    simp
  | cons row rest ih =>
    intro good h
    match row with
    | [] => simp [matchLoop] at h
    | [m] => simp [matchLoop] at h
    | m :: n :: x :: xs => simp [matchLoop] at h
    | [m, n] =>
      simp only [matchLoop] at h
      split at h
      · split at h
        · simp at h
        · rename_i kp hkp
          split at h
          · rename_i hresp
            split at h
            · simp at h
            · rename_i g hg
              cases h
              obtain ⟨hl, hs⟩ := ih g hg
              constructor
              · simpa using Nat.succ_le_succ hl
              · intro p hp
                rcases List.mem_cons.mp hp with rfl | hp
                · exact ⟨kp, hkp, hresp⟩
                · exact hs p hp
          · obtain ⟨hl, hs⟩ := ih good h
            exact ⟨Nat.le_succ_of_le hl, hs⟩
      · obtain ⟨hl, hs⟩ := ih good h
        exact ⟨Nat.le_succ_of_le hl, hs⟩

theorem getCorners_ok (corners : List Keypoint) :
    ∀ (idxs : List Nat) (l : List Keypoint), getCorners corners idxs = .ok l →
      l.length = idxs.length ∧ ∀ kp ∈ l, ∃ i ∈ idxs, corners[i]? = some kp := by
  intro idxs
  induction idxs with
  | nil =>
    intro l h
    simp only [getCorners] at h
    cases h
    simp
  | cons i is ih =>
    intro l h
    simp only [getCorners] at h
    split at h
    · simp at h
    · rename_i kp hkp
      split at h
      · simp at h
      · rename_i rest hrest
        cases h
        obtain ⟨hl, hs⟩ := ih rest hrest
        refine ⟨by simp [hl], ?_⟩
        intro x hx
        rcases List.mem_cons.mp hx with rfl | hx
        · exact ⟨i, by simp, hkp⟩
        · obtain ⟨j, hj, hjs⟩ := hs x hx
          exact ⟨j, by simp [hj], hjs⟩

theorem getCorners_total (corners : List Keypoint) :
    ∀ idxs : List Nat, (∀ i ∈ idxs, ∃ kp, corners[i]? = some kp) →
      ∃ l, getCorners corners idxs = .ok l := by
  intro idxs
  induction idxs with
  | nil => intro _; exact ⟨[], rfl⟩
  | cons i is ih =>
    intro h
    obtain ⟨kp, hkp⟩ := h i (by simp)
    obtain ⟨l, hl⟩ := ih (fun j hj => h j (by simp [hj]))
    exact ⟨kp :: l, by simp [getCorners, hkp, hl]⟩

theorem matchLoop_ne_indexError (t c : ℚ) (corners : List Keypoint) :
    ∀ ms : List (List DMatch),
      (∀ row ∈ ms, ∀ m ∈ row, m.trainIdx < corners.length) →
      matchLoop t c corners ms ≠ .error .indexError := by
  intro ms
  induction ms with
  | nil => intro _ h; simp [matchLoop] at h
  | cons row rest ih =>
    intro hb
    have hbrest : ∀ r ∈ rest, ∀ m ∈ r, m.trainIdx < corners.length :=
      fun r hr => hb r (by simp [hr])
    match row with
    | [] => simp [matchLoop]
    | [m] => simp [matchLoop]
    | m :: n :: x :: xs => simp [matchLoop]
    | [m, n] =>
      intro h
      simp only [matchLoop] at h
      split at h
      · split at h
        · rename_i hnone
          have hlt : m.trainIdx < corners.length := hb [m, n] (by simp) m (by simp)
          rw [List.getElem?_eq_getElem hlt] at hnone
          simp at hnone
        · split at h
          · split at h
            · rename_i e he
              cases h
              exact ih hbrest he
            · simp at h
          · exact ih hbrest h
      · exact ih hbrest h

theorem knnRows_length {Image D : Type} (M : CVModel Image D) (new : List D) :
    ∀ (qi : Nat) (qs : List D), (knnRows M new qi qs).length = qs.length := by
  intro qi qs
  induction qs generalizing qi with
  | nil => rfl
  | cons q qs ih => simp [knnRows, ih]

theorem knnRows_mem {Image D : Type} (M : CVModel Image D) (new : List D) :
    ∀ (qi : Nat) (qs : List D) (row : List DMatch), row ∈ knnRows M new qi qs →
      ∃ j q, q ∈ qs ∧ row = (List.insertionSort dmLE (cands M j q new)).take 2 := by
  intro qi qs
  induction qs generalizing qi with
  | nil => intro row h; simp [knnRows] at h
  | cons q qs ih =>
    intro row h
    simp only [knnRows, List.mem_cons] at h
    rcases h with rfl | h
    · exact ⟨qi, q, by simp, rfl⟩
    · obtain ⟨j, q', hq', hrow⟩ := ih (qi + 1) row h
      exact ⟨j, q', by simp [hq'], hrow⟩

theorem mem_cands {Image D : Type} {M : CVModel Image D} {j : Nat} {q : D}
    {pool : List D} {m : DMatch} (h : m ∈ cands M j q pool) :
    m.queryIdx = j ∧ m.trainIdx < pool.length ∧
      m.distance = M.dist q (pool.getD m.trainIdx q) := by
  simp only [cands, List.mem_map, List.mem_range] at h
  obtain ⟨ti, hti, rfl⟩ := h
  exact ⟨rfl, hti, rfl⟩

theorem knnMatch_trainIdx_lt {Image D : Type} (M : CVModel Image D)
    (original new : List D) :
    ∀ row ∈ knnMatch M original new, ∀ m ∈ row, m.trainIdx < new.length := by
  intro row hrow m hm
  unfold knnMatch at hrow
  split at hrow
  · simp at hrow
  · obtain ⟨j, q, -, rfl⟩ := knnRows_mem M new 0 original row hrow
    have h1 : m ∈ List.insertionSort dmLE (cands M j q new) := List.mem_of_mem_take hm
    have h2 : m ∈ cands M j q new := (List.mem_insertionSort dmLE).mp h1
    exact (mem_cands h2).2.1

/-- C8: no keypoint whose response is at or below `corner_threshold`
ever appears in the output of `corner_match`, for any input on which the
call returns. -/
theorem C8_response_filtered {Image D : Type} (M : CVModel Image D)
    (od : object_detection) (original new : List D) (new_corners : List Keypoint)
    (l : List Keypoint) (h : corner_match M od original new new_corners = .ok l) :
    ∀ kp ∈ l, od.corner_threshold < kp.response := by
  unfold corner_match at h
  split at h
  · simp at h
  · rename_i good hgood
    obtain ⟨-, hspec⟩ := matchLoop_ok _ _ _ _ _ hgood
    obtain ⟨-, hmem⟩ := getCorners_ok _ _ _ h
    intro kp hkp
    obtain ⟨i, hi, hsome⟩ := hmem kp hkp
    obtain ⟨p, hp, rfl⟩ := List.mem_map.mp hi
    obtain ⟨kp', hsome', hresp⟩ := hspec p hp
    rw [hsome] at hsome'
    cases hsome'
    exact hresp

theorem C8_witness : od0.corner_threshold < (kpAt 0).response :=
  C8_response_filtered ratM od0 [0] [1, 2] [kpAt 0, kpAt 1] [kpAt 0]
    (by with_unfolding_all rfl) (kpAt 0) (by simp)

/-- C3 counterexample: with the ratio threshold at its maximum
permissive value (`1.0`, the slider maximum), three reference
descriptors all match the same one of two query keypoints, so the
output repeats that keypoint three times — longer than the query
keypoint list, and with an accepted keypoint appearing more than once. -/
theorem C3_counterexample :
    corner_match ratM od0 [0, 1, 2] [0, 100] [kpAt 0, kpAt 1]
      = .ok [kpAt 0, kpAt 0, kpAt 0] ∧
    ([kpAt 0, kpAt 1] : List Keypoint).length
      < ([kpAt 0, kpAt 0, kpAt 0] : List Keypoint).length ∧
    ([kpAt 0, kpAt 0, kpAt 0] : List Keypoint).count (kpAt 0) = 3 := by
  refine ⟨by with_unfolding_all rfl, by simp, by with_unfolding_all decide⟩

/-- C3 amended: whenever `corner_match` returns, its output length never
exceeds the number of *reference* descriptors (one acceptance per
reference descriptor), and every output element is one of the query
keypoints; a single query keypoint may however appear several times. -/
theorem C3_amended_output_bound {Image D : Type} (M : CVModel Image D)
    (od : object_detection) (original new : List D) (new_corners : List Keypoint)
    (l : List Keypoint) (h : corner_match M od original new new_corners = .ok l) :
    l.length ≤ original.length ∧ ∀ kp ∈ l, kp ∈ new_corners := by
  have hms : (knnMatch M original new).length ≤ original.length := by
    unfold knnMatch
    split
    · simp
    · rw [knnRows_length]
  unfold corner_match at h
  split at h
  · simp at h
  · rename_i good hgood
    obtain ⟨hlen, -⟩ := matchLoop_ok _ _ _ _ _ hgood
    obtain ⟨hlen2, hmem⟩ := getCorners_ok _ _ _ h
    constructor
    · calc l.length = (good.map (·.2)).length := hlen2
        _ = good.length := by simp
        _ ≤ (knnMatch M original new).length := hlen
        _ ≤ original.length := hms
    · intro kp hkp
      obtain ⟨i, -, hsome⟩ := hmem kp hkp
      exact List.getElem?_mem hsome

theorem C3_witness :
    ([kpAt 0, kpAt 0, kpAt 0] : List Keypoint).length ≤ ([0, 1, 2] : List ℚ).length ∧
    ∀ kp ∈ ([kpAt 0, kpAt 0, kpAt 0] : List Keypoint), kp ∈ [kpAt 0, kpAt 1] :=
  C3_amended_output_bound ratM od0 [0, 1, 2] [0, 100] [kpAt 0, kpAt 1]
    [kpAt 0, kpAt 0, kpAt 0] (by with_unfolding_all rfl)

/-- C9: `corner_match` indexes `new_corners` at the `trainIdx` of
each returned match; when every such `trainIdx` is in range of `new_corners` the
call never raises `IndexError` (first conjunct).  The precondition is
needed: with one more frame descriptor than frame corners some
`trainIdx` goes out of range and `IndexError` is raised (second
conjunct).  The third conjunct replays the call shape of the orchestrator: `find_corners` at the slider threshold `0.02` keeps 1 corner of
`frame9`, the slider then moves to `0`, `find_descriptors` re-runs
detection and yields 2 descriptors, and `corner_match` on that
misaligned pair raises `IndexError`. -/
theorem C9_trainIdx_precondition {Image D : Type} (M : CVModel Image D)
    (od : object_detection) (original new : List D) (new_corners : List Keypoint)
    (h : ∀ row ∈ knnMatch M original new, ∀ m ∈ row, m.trainIdx < new_corners.length) :
    corner_match M od original new new_corners ≠ .error .indexError ∧
    corner_match ratM od0 [0] [1, 0] [kpAt 9] = .error .indexError ∧
    corner_match cvQ od9c [1] (find_descriptors cvQ od9c frame9)
        (find_corners cvQ od9a frame9) = .error .indexError := by
  refine ⟨?_, by with_unfolding_all rfl, by with_unfolding_all rfl⟩
  intro hbad
  unfold corner_match at hbad
  split at hbad
  · rename_i e he
    cases hbad
    exact matchLoop_ne_indexError _ _ _ _ h he
  · rename_i good hgood
    obtain ⟨-, hspec⟩ := matchLoop_ok _ _ _ _ _ hgood
    obtain ⟨l, hl⟩ := getCorners_total new_corners (good.map (·.2)) (by
      intro i hi
      obtain ⟨p, hp, rfl⟩ := List.mem_map.mp hi
      obtain ⟨kp, hkp, -⟩ := hspec p hp
      exact ⟨kp, hkp⟩)
    rw [hl] at hbad
    cases hbad

theorem C9_witness :
    corner_match ratM od0 [0] [1, 2] [kpAt 0, kpAt 1] ≠ .error .indexError ∧
    corner_match ratM od0 [0] [1, 0] [kpAt 9] = .error .indexError ∧
    corner_match cvQ od9c [1] (find_descriptors cvQ od9c frame9)
        (find_corners cvQ od9a frame9) = .error .indexError :=
  C9_trainIdx_precondition ratM od0 [0] [1, 2] [kpAt 0, kpAt 1]
    (by with_unfolding_all decide)

/-!  The per-reference characterization of `corner_match` (claim C1). -/

/-- Relabel the query index of a match (sorting only compares distances). -/
def reIdx (qi : Nat) (m : DMatch) : DMatch := ⟨qi, m.trainIdx, m.distance⟩

theorem cands_reIdx {Image D : Type} (M : CVModel Image D) (qi : Nat) (q : D)
    (pool : List D) : cands M qi q pool = (cands M 0 q pool).map (reIdx qi) := by
  simp only [cands, List.map_map]
  rfl

theorem insertionSort_reIdx (qi : Nat) (l : List DMatch) :
    List.insertionSort dmLE (l.map (reIdx qi))
      = (List.insertionSort dmLE l).map (reIdx qi) :=
  (List.map_insertionSort dmLE dmLE (reIdx qi) l (fun _ _ _ _ => Iff.rfl)).symm

theorem sort_cands_spec {Image D : Type} (M : CVModel Image D) (q : D)
    (new : List D) (h2 : 2 ≤ new.length) :
    ∃ m n rest, List.insertionSort dmLE (cands M 0 q new) = m :: n :: rest ∧
      m.trainIdx < new.length ∧ n.trainIdx < new.length ∧ m.trainIdx ≠ n.trainIdx ∧
      m.distance = M.dist q (new.getD m.trainIdx q) ∧
      n.distance = M.dist q (new.getD n.trainIdx q) ∧
      (∀ k, k < new.length → m.distance ≤ M.dist q (new.getD k q)) ∧
      (∀ k, k < new.length → k ≠ m.trainIdx → n.distance ≤ M.dist q (new.getD k q)) := by
  have hclen : (cands M 0 q new).length = new.length := by simp [cands]
  have hlen : (List.insertionSort dmLE (cands M 0 q new)).length = new.length := by
    rw [List.length_insertionSort, hclen]
  have hsorted : List.Sorted dmLE (List.insertionSort dmLE (cands M 0 q new)) :=
    List.sorted_insertionSort dmLE _
  have hperm : List.Perm (List.insertionSort dmLE (cands M 0 q new)) (cands M 0 q new) :=
    List.perm_insertionSort dmLE _
  obtain ⟨m, n, rest, hmn⟩ :
      ∃ m n rest, List.insertionSort dmLE (cands M 0 q new) = m :: n :: rest := by
    cases hs : List.insertionSort dmLE (cands M 0 q new) with
    | nil => rw [hs] at hlen; simp at hlen; omega
    | cons m tail =>
      cases tail with
      | nil => rw [hs] at hlen; simp at hlen; omega
      | cons n rest => exact ⟨m, n, rest, rfl⟩
  have hmem : ∀ x ∈ (m :: n :: rest : List DMatch), x ∈ cands M 0 q new := by
    intro x hx
    exact hperm.mem_iff.mp (hmn ▸ hx)
  have hcandk : ∀ k, k < new.length →
      (⟨0, k, M.dist q (new.getD k q)⟩ : DMatch) ∈ cands M 0 q new := by
    intro k hk
    simp only [cands, List.mem_map, List.mem_range]
    exact ⟨k, hk, rfl⟩
  have hcandmem : ∀ k, k < new.length →
      (⟨0, k, M.dist q (new.getD k q)⟩ : DMatch) ∈ (m :: n :: rest : List DMatch) := by
    intro k hk
    exact hmn ▸ hperm.mem_iff.mpr (hcandk k hk)
  have hm := mem_cands (hmem m (by simp))
  have hn := mem_cands (hmem n (by simp))
  have hsorted2 : List.Sorted dmLE (m :: n :: rest) := hmn ▸ hsorted
  have hnodup : (List.map DMatch.trainIdx (m :: n :: rest)).Nodup := by
    have hp : List.Perm (List.map DMatch.trainIdx (m :: n :: rest))
        (List.map DMatch.trainIdx (cands M 0 q new)) := by
      refine List.Perm.map _ ?_
      exact hmn ▸ hperm
    have hc : List.map DMatch.trainIdx (cands M 0 q new) = List.range new.length := by
      simp only [cands, List.map_map]
      have hid : (DMatch.trainIdx ∘ fun ti =>
          (⟨0, ti, M.dist q (new.getD ti q)⟩ : DMatch)) = id := rfl
      rw [hid, List.map_id]
    rw [hp.nodup_iff, hc]
    exact List.nodup_range _
  have hne : m.trainIdx ≠ n.trainIdx := by
    simp only [List.map, List.nodup_cons, List.mem_cons] at hnodup
    exact fun e => hnodup.1 (Or.inl e)
  refine ⟨m, n, rest, hmn, hm.2.1, hn.2.1, hne, hm.2.2, hn.2.2, ?_, ?_⟩
  · intro k hk
    rcases List.mem_cons.mp (hcandmem k hk) with he | htail
    · rw [← he]
    · have := List.rel_of_sorted_cons hsorted2 _ htail
      exact this
  · intro k hk hkm
    have hnotm : (⟨0, k, M.dist q (new.getD k q)⟩ : DMatch) ≠ m := by
      intro he
      exact hkm (by rw [← he])
    rcases List.mem_cons.mp (hcandmem k hk) with he | htail
    · exact absurd he hnotm
    · rcases List.mem_cons.mp htail with he | htail2
      · rw [← he]
      · exact List.rel_of_sorted_cons hsorted2.of_cons _ htail2

theorem knnRows_loop {Image D : Type} (M : CVModel Image D) (od : object_detection)
    (new : List D) (new_corners : List Keypoint)
    (h2 : 2 ≤ new.length) (hb : new.length ≤ new_corners.length) :
    ∀ (qi : Nat) (qs : List D), ∃ good,
      matchLoop od.corner_threshold od.close_match_threshold new_corners
          (knnRows M new qi qs) = .ok good ∧
      getCorners new_corners (good.map (·.2))
        = .ok (qs.filterMap (acceptedRef M od new new_corners)) := by
  intro qi qs
  induction qs generalizing qi with
  | nil => exact ⟨[], rfl, rfl⟩
  | cons q qs ih =>
    obtain ⟨good, hgood, hget⟩ := ih (qi + 1)
    obtain ⟨m, n, rest, hmn, hmlt, -, -, -, -, -, -⟩ := sort_cands_spec M q new h2
    have hrow : (List.insertionSort dmLE (cands M qi q new)).take 2
        = [reIdx qi m, reIdx qi n] := by
      rw [cands_reIdx, insertionSort_reIdx, hmn]
      rfl
    have hknn : knnRows M new qi (q :: qs)
        = [reIdx qi m, reIdx qi n] :: knnRows M new (qi + 1) qs := by
      rw [knnRows, hrow]
    obtain ⟨kp, hkp⟩ : ∃ kp, new_corners[m.trainIdx]? = some kp :=
      ⟨_, List.getElem?_eq_getElem (lt_of_lt_of_le hmlt hb)⟩
    by_cases hguard : m.distance < od.close_match_threshold * n.distance
    · by_cases hresp : od.corner_threshold < kp.response
      · have hacc : acceptedRef M od new new_corners q = some kp := by
          simp only [acceptedRef, hmn]
          rw [hkp]
          simp [hguard, hresp]
        refine ⟨(qi, m.trainIdx) :: good, ?_, ?_⟩
        · rw [hknn]
          simp only [matchLoop, reIdx]
          rw [if_pos hguard, hkp]
          dsimp only
          rw [if_pos hresp, hgood]
        · simp only [List.map_cons]
          simp only [getCorners]
          rw [hkp, hget]
          simp [List.filterMap_cons, hacc]
      · have hacc : acceptedRef M od new new_corners q = none := by
          simp only [acceptedRef, hmn]
          rw [hkp]
          simp [hguard, hresp]
        refine ⟨good, ?_, ?_⟩
        · rw [hknn]
          simp only [matchLoop, reIdx]
          rw [if_pos hguard, hkp]
          dsimp only
          rw [if_neg hresp]
          exact hgood
        · rw [hget]
          simp [List.filterMap_cons, hacc]
    · have hacc : acceptedRef M od new new_corners q = none := by
        simp only [acceptedRef, hmn]
        simp [hguard]
      refine ⟨good, ?_, ?_⟩
      · rw [hknn]
        simp only [matchLoop, reIdx]
        rw [if_neg hguard]
        exact hgood
      · rw [hget]
        simp [List.filterMap_cons, hacc]

/-- C1 counterexample: the matching direction the claim states is wrong.  On
reference descriptors `[0, 10]` and query descriptors `[5, 100]` with
ratio threshold `0.9`, the acceptance rule the claim states (each
*query* descriptor matched into the *reference* set) accepts nothing,
while `corner_match` (which matches each *reference* descriptor into
the query set) accepts the first query keypoint twice. -/
theorem C1_counterexample :
    corner_match ratM odr [0, 10] [5, 100] [kpAt 0, kpAt 1]
      = .ok [kpAt 0, kpAt 0] ∧
    corner_match_spec ratM odr [0, 10] [5, 100] [kpAt 0, kpAt 1] = [] :=
  ⟨by with_unfolding_all rfl, by with_unfolding_all rfl⟩

/-- C1 amended: `corner_match` matches in the reverse direction — for
each *reference* descriptor, its nearest and second-nearest neighbours
(distances `d1 ≤ d2`, minimal over the query descriptor set) are found
among the *query* descriptors, and the query keypoint at the nearest
neighbour's index is accepted iff `d1 < close_match_threshold * d2` and
its `response > corner_threshold`; acceptances are emitted once per
reference descriptor, so one query keypoint can appear repeatedly. -/
theorem C1_amended_reverse_direction {Image D : Type} (M : CVModel Image D)
    (od : object_detection) (original new : List D) (new_corners : List Keypoint)
    (h2 : 2 ≤ new.length) (hb : new.length ≤ new_corners.length) :
    corner_match M od original new new_corners
      = .ok (original.filterMap (acceptedRef M od new new_corners)) ∧
    ∀ q ∈ original, ∃ m n rest,
      List.insertionSort dmLE (cands M 0 q new) = m :: n :: rest ∧
      m.trainIdx < new.length ∧ n.trainIdx < new.length ∧ m.trainIdx ≠ n.trainIdx ∧
      m.distance = M.dist q (new.getD m.trainIdx q) ∧
      n.distance = M.dist q (new.getD n.trainIdx q) ∧
      (∀ k, k < new.length → m.distance ≤ M.dist q (new.getD k q)) ∧
      (∀ k, k < new.length → k ≠ m.trainIdx →
        n.distance ≤ M.dist q (new.getD k q)) := by
  constructor
  · cases horig : original with
    | nil => simp [corner_match, knnMatch, matchLoop, getCorners]
    | cons q0 qs0 =>
      have hne : new.isEmpty = false := by
        cases new with
        | nil => simp at h2
        | cons a l => rfl
      obtain ⟨good, hgood, hget⟩ :=
        knnRows_loop M od new new_corners h2 hb 0 (q0 :: qs0)
      unfold corner_match knnMatch
      rw [hne]
      simp only [List.isEmpty_cons, Bool.or_false, Bool.false_eq_true, if_false]
      rw [hgood]
      dsimp only
      exact hget
  · intro q _
    exact sort_cands_spec M q new h2

theorem C1_witness :
    2 ≤ ([5, 100] : List ℚ).length ∧
    corner_match ratM odr [0, 10] [5, 100] [kpAt 0, kpAt 1]
      = .ok (([0, 10] : List ℚ).filterMap
          (acceptedRef ratM odr [5, 100] [kpAt 0, kpAt 1])) :=
  ⟨by decide,
    (C1_amended_reverse_direction ratM odr [0, 10] [5, 100] [kpAt 0, kpAt 1]
      (by decide) (by decide)).1⟩

/-- C2: the orchestrator loop reuses the cluster result of an earlier frame.
Starting with `cluster_coords` unbound, `frameA` matches six corners,
clusters them and draws `centersA`.  The next frame, `frameB`, detects
two corners (so it is not skipped) but matches none, so its clustering
stage is skipped (`0 ≤ 5`) and its own clustering outcome would be
`none` — yet the loop state still holds `centersA` from `frameA` and the
overlay draws those stale centroids on `frameB`. -/
theorem C2_stale_cluster_overlay :
    loop_step cvQ od0 tdescA none frameA
      = .ok (some (some centersA), some ⟨some centersA, goodA⟩) ∧
    loop_step cvQ od0 tdescA (some (some centersA)) frameB
      = .ok (some (some centersA), some ⟨some centersA, []⟩) ∧
    find_four_clusters od0 ([] : List Keypoint) = none :=
  ⟨by with_unfolding_all rfl, by with_unfolding_all rfl, by with_unfolding_all rfl⟩
